import Mathlib

/-!
# Verification of the duplicate-file detection pipeline

Shallow embedding of the duplicate-file finder scripts
(`a5nov/dupf/xfindupy.py`, `a5nov/dupf/dupf.py`, `a5nov/dupf/findup_xxhash.py`)
and of the folder-hashing utilities (`pyfileutilz/pyfileutilz/hashutil.py`).

Modelling conventions:
* A file on disk is a `FileEntry`: its path string, its content as a list of
  bytes (`List Nat`), its modification time, and three booleans recording
  whether the `stat` call, the open/read, and the `stat`+`os.remove` calls
  succeed on it (`statOk`, `readOk`, `deleteOk`).  `stat().st_size` is the
  byte length of the content.
* Python `dict` / `defaultdict(list)` values keyed by size or digest are
  modelled as insertion-ordered association lists (`dictInsert`, `dlookup`);
  this matches Python's guaranteed insertion-order iteration and
  `d[k].append(v)` semantics.
* The external digest primitives (`xxhash.xxh64`, `hashlib.md5`, …) are an
  abstract function `H : List Nat → Nat` applied to the byte stream that the
  code feeds into the incremental hasher object; the incremental hasher state
  is the concatenation of the chunks fed to `update` so far.
* The process-wide `SKIPPED_PATHS` list is modelled as an explicit extra
  output of each stage that appends to it.
* Exceptions that escape a function are modelled with `Except`; printing and
  deleting are modelled as outputs (`printed`, `deletedPaths`).
-/

/-- A file visible to the scripts: path, content bytes, mtime, and whether
`stat`, open/read, and delete system calls succeed on it. -/
structure FileEntry where
  path : String
  content : List Nat
  mtime : Nat
  statOk : Bool
  readOk : Bool
  deleteOk : Bool
deriving DecidableEq, Repr

/-- Python `defaultdict(list)`-style insertion: append `v` to the entry of `k`,
creating the entry at the end when `k` is new (Python dict insertion order). -/
def dictInsert {α β : Type} [DecidableEq α] (k : α) (v : β) :
    List (α × List β) → List (α × List β)
  | [] => [(k, [v])]
  | (k', vs) :: rest =>
    if k' = k then (k', vs ++ [v]) :: rest else (k', vs) :: dictInsert k v rest

/-- First-match lookup in an association list, like Python `d[k]`. -/
def dlookup {α β : Type} [DecidableEq α] (k : α) :
    List (α × List β) → Option (List β)
  | [] => none
  | (k', vs) :: rest => if k' = k then some vs else dlookup k rest

/-- Building a dict by running `d[k].append(v)` over a list of pairs. -/
def buildDict {α β : Type} [DecidableEq α] (l : List (α × β)) :
    List (α × List β) :=
  l.foldl (fun d kv => dictInsert kv.1 kv.2 d) []

/-- The keys of an association-list dict, in insertion order. -/
def dkeys {α β : Type} (d : List (α × List β)) : List α := d.map Prod.fst

/-- The chunk sequence produced by `iter(lambda: f.read(chunk_size), b'')`:
take `c` bytes at a time until the file is exhausted.  For `c = 0`,
`f.read(0)` returns the empty sentinel immediately, so no chunks are read. -/
def readChunks (c : Nat) (bs : List Nat) : List (List Nat) :=
  if h : bs = [] ∨ c = 0 then []
  else bs.take c :: readChunks c (bs.drop c)
termination_by bs.length
decreasing_by
  simp only [not_or] at h
  have h1 : 0 < bs.length := List.length_pos.mpr h.1
  have h2 : 0 < c := Nat.pos_of_ne_zero h.2
  simp only [List.length_drop]
  omega

/-- Model of `hash_file_mp` (xfindupy.py): worker function; chunked xxhash64 of the
file, returning `(path, digest)`, or `(path, none)` when open/read raises
`PermissionError`/`OSError` (caught in the worker, never propagated). -/
def hash_file_mp (H : List Nat → Nat) (chunk_size : Nat) (f : FileEntry) :
    String × Option Nat :=
  if f.readOk then (f.path, some (H (readChunks chunk_size f.content).flatten))
  else (f.path, none)

/-- Model of `group_by_size` (xfindupy.py): partition files by `stat().st_size`;
files whose `stat` raises go to `SKIPPED_PATHS` (the second component). -/
def group_by_size (files : List FileEntry) :
    List (Nat × List FileEntry) × List String :=
  files.foldl
    (fun acc f =>
      if f.statOk then (dictInsert f.content.length f acc.1, acc.2)
      else (acc.1, acc.2 ++ [f.path]))
    ([], [])

/-- The flattened candidate list of `hash_groups_in_parallel`: members of
size groups with more than one element, in group-insertion order. -/
def candidates (groups : List (Nat × List FileEntry)) : List FileEntry :=
  groups.foldl (fun acc kv => if kv.2.length > 1 then acc ++ kv.2 else acc) []

/-- Model of `hash_groups_in_parallel` (xfindupy.py).  Input: the size dict; output:
the digest dict restricted to groups with ≥ 2 paths, plus the paths appended
to `SKIPPED_PATHS` for workers that returned an absent digest.  `poolOk`
records whether `mp.Pool(...)` construction succeeds; the source has no
handler around it, so a pool failure propagates as an exception
(`Except.error`).  Worker results are modelled arriving in submission order
(membership in the output does not depend on completion order). -/
def hash_groups_in_parallel (H : List Nat → Nat) (poolOk : Bool)
    (groups : List (Nat × List FileEntry)) :
    Except String (List (Nat × List String) × List String) :=
  let cand := candidates groups
  if cand.isEmpty then Except.ok ([], [])
  else if poolOk then
    let results := cand.map (hash_file_mp H 8192)
    let built := results.foldl
      (fun acc pr =>
        match pr.2 with
        | none => (acc.1, acc.2 ++ [pr.1])
        | some h => (dictInsert h pr.1 acc.1, acc.2))
      (([] : List (Nat × List String)), ([] : List String))
    Except.ok (built.1.filter (fun e => e.2.length > 1), built.2)
  else Except.error "pool initialization failed"

/-- Model of `auto_delete_duplicates` (xfindupy.py): for each digest group, keep
`files[0]` and try to delete the rest; a failed `os.remove` is printed and
skipped.  `removeOk` tells which paths `os.remove` succeeds on.  Returns the
printed `deleted_count` and the list of actually deleted paths (the
function's filesystem effect, modelled as an output). -/
def auto_delete_duplicates (removeOk : String → Bool)
    (dups : List (Nat × List String)) : Nat × List String :=
  dups.foldl
    (fun acc kv =>
      (kv.2.drop 1).foldl
        (fun acc2 p =>
          if removeOk p then (acc2.1 + 1, acc2.2 ++ [p]) else acc2)
        acc)
    (0, [])

/-- Model of `get_file_hash` (dupf.py): md5 of the file read in 4096-byte chunks. -/
def get_file_hash (H : List Nat → Nat) (content : List Nat) : Nat :=
  H (readChunks 4096 content).flatten

/-- One step of `file_paths.sort(key=lambda x: x.stat().st_mtime,
reverse=True)`: stable descending insertion by `mtime`. -/
def insertDesc (f : FileEntry) : List FileEntry → List FileEntry
  | [] => [f]
  | g :: gs => if g.mtime ≤ f.mtime then f :: g :: gs else g :: insertDesc f gs

/-- Stable sort of a group by modification time, newest first (the key-based
reverse sort in `find_and_delete_duplicates`). -/
def sortByMtimeDesc (l : List FileEntry) : List FileEntry :=
  l.foldr insertDesc []

/-- Counters of `find_and_delete_duplicates` (dupf.py), plus the deleted
paths as an explicit record of the filesystem effect. -/
structure DelStats where
  duplicateCount : Nat
  deletedCount : Nat
  totalDeletedSize : Nat
  deletedPaths : List String
deriving DecidableEq, Repr

/-- The hashing walk of `find_and_delete_duplicates`: hash every file and
group by digest; a file where `get_file_hash` raises is printed and
skipped (`readOk = false`). -/
def dupf_files_by_hash (H : List Nat → Nat) (files : List FileEntry) :
    List (Nat × List FileEntry) :=
  files.foldl
    (fun d f => if f.readOk then dictInsert (get_file_hash H f.content) f d else d)
    []

/-- Deletion pass of `find_and_delete_duplicates` over one duplicate group:
sort newest-first, keep the head, try to stat-and-remove each of the rest;
a failure is printed and contributes to no counter. -/
def dupf_deleteGroup (acc : DelStats) (fs : List FileEntry) : DelStats :=
  (sortByMtimeDesc fs).tail.foldl
    (fun a f =>
      if f.deleteOk then
        { a with
          deletedCount := a.deletedCount + 1
          totalDeletedSize := a.totalDeletedSize + f.content.length
          deletedPaths := a.deletedPaths ++ [f.path] }
      else a)
    { acc with duplicateCount := acc.duplicateCount + (fs.length - 1) }

/-- Model of `find_and_delete_duplicates` (dupf.py): hash all files (the walked list),
then for each multi-member digest group keep the newest file and delete the
rest, accumulating the summary counters. -/
def find_and_delete_duplicates (H : List Nat → Nat) (files : List FileEntry) :
    DelStats :=
  (dupf_files_by_hash H files).foldl
    (fun acc kv => if kv.2.length > 1 then dupf_deleteGroup acc kv.2 else acc)
    ⟨0, 0, 0, []⟩

/-- Model of `find_duplicate_files` (findup_xxhash.py): raises `ValueError` when the
root does not exist — this is the only validation, `directory.exists()` is
also true for a regular file; otherwise hashes every walked file (no size
prefilter), collecting paths per digest, and returns only groups with ≥ 2
paths.  `files` is the file list under the root when it is a directory;
`os.walk` on an existing path that is not a directory yields no triples
(documented Python behaviour), so nothing is walked then. -/
def find_duplicate_files (H : List Nat → Nat) (dirExists rootIsDir : Bool)
    (files : List FileEntry) : Except String (List (Nat × List String)) :=
  if dirExists = false then Except.error "Directory does not exist"
  else
    let walked := if rootIsDir then files else []
    Except.ok
      ((walked.foldl
          (fun d f =>
            if f.readOk then dictInsert (H (readChunks 8192 f.content).flatten) f.path d
            else d)
          []).filter
        (fun kv => kv.2.length > 1))

/-- Observable outcome of one `main()` run of xfindupy.py: error messages
printed, the process exit code, the JSON written to the output file (if any),
and the files deleted. -/
structure MainOutcome where
  printed : List String
  exitCode : Nat
  jsonWritten : Option (List (Nat × List String))
  deletedPaths : List String
deriving DecidableEq, Repr

/-- Model of `main` (xfindupy.py).  When the folder does not exist it prints the error
and `return`s from `main`, so the interpreter exits normally with code 0.
The only check is `target.exists()`, which is also true for a regular file;
`files` is the file list under the root when it is a directory, and
`os.walk` on an existing path that is not a directory yields no triples
(documented Python behaviour), so nothing is collected then.  An exception
escaping the pipeline (pool failure) ends the process with a traceback and
exit code 1.  Otherwise the duplicate dict is written as JSON when
non-empty, and `--auto-delete` then removes all but the first path of each
group.  `printed` records error messages only, not the normal report. -/
def xfindupy_main (H : List Nat → Nat) (folderExists rootIsDir : Bool)
    (files : List FileEntry) (autoDelete : Bool) (poolOk : Bool)
    (removeOk : String → Bool) : MainOutcome :=
  if folderExists = false then
    { printed := ["Folder does not exist."], exitCode := 0
      jsonWritten := none, deletedPaths := [] }
  else
    let walked := if rootIsDir then files else []
    match hash_groups_in_parallel H poolOk (group_by_size walked).1 with
    | Except.error e =>
      { printed := [e], exitCode := 1, jsonWritten := none, deletedPaths := [] }
    | Except.ok (dups, _) =>
      if dups.isEmpty then
        { printed := [], exitCode := 0, jsonWritten := none, deletedPaths := [] }
      else
        { printed := [], exitCode := 0, jsonWritten := some dups
          deletedPaths :=
            if autoDelete then (auto_delete_duplicates removeOk dups).2 else [] }

/-- Model of `remove_duplicates` (dupf.py).  Modelled from the spec: the body of the
click command is in the source, but the validation of its `path` argument is
performed by the external `click.Path(exists=True, file_okay=False,
dir_okay=True)` decorator, which is documented to abort with a usage error
(process exit code 2) before the body runs when the path does not exist or
is not a directory.  Returns the exit code and, when the body ran, its
summary. -/
def remove_duplicates (H : List Nat → Nat) (pathIsDir : Bool)
    (files : List FileEntry) : Nat × Option DelStats :=
  if pathIsDir = false then (2, none)
  else (0, some (find_and_delete_duplicates H files))

/-- A filesystem path as the scripts see it: `pathlib.Path(root) / name`
keeps the root exactly as given, so a path is its component list plus a flag
telling whether the root it was built from was absolute. -/
structure PathM where
  isAbs : Bool
  comps : List String
deriving DecidableEq, Repr

/-- A directory tree: named subdirectories and file names. -/
inductive FSTree where
  | node : List (String × FSTree) → List String → FSTree

/-- The `EXCLUDED_DIRS` set (xfindupy.py). -/
def EXCLUDED_DIRS : List String := [".git", ".venv", "venv", "usr"]

mutual

/-- Model of `collect_all_files` (xfindupy.py): `os.walk` top-down from `root`,
pruning `EXCLUDED_DIRS` in place, collecting `Path(root) / f` for every
file.  The produced paths extend `root` literally, relative or absolute. -/
def collect_all_files (root : PathM) : FSTree → List PathM
  | FSTree.node dirs files =>
    files.map (fun f => ⟨root.isAbs, root.comps ++ [f]⟩) ++
      collectSubdirs root dirs

/-- Recursion of `collect_all_files` into the non-excluded subdirectories. -/
def collectSubdirs (root : PathM) : List (String × FSTree) → List PathM
  | [] => []
  | d :: ds =>
    (if EXCLUDED_DIRS.contains d.1 then []
     else collect_all_files ⟨root.isAbs, root.comps ++ [d.1]⟩ d.2) ++
      collectSubdirs root ds

end

/-- Lexicographic order on `(filename, file_hash)` pairs: the order used by
Python's `sorted(file_hashes.items())`. -/
def pairLe (a b : String × String) : Prop :=
  a.1 < b.1 ∨ (a.1 = b.1 ∧ a.2 ≤ b.2)

instance : DecidableRel pairLe := fun a b => by
  unfold pairLe; infer_instance

/-- Python `sorted(file_hashes.items())`: the item pairs in lexicographic order. -/
def sortedItems (l : List (String × String)) : List (String × String) :=
  List.insertionSort pairLe l

/-- Model of `FolderHasher.get_folder_signature` (hashutil.py), starting from the
`hash_folder` result (an enumeration of relative-path/digest pairs): sort
the pairs, then feed `filename` and `file_hash` of every non-error entry
into the master hash.  The incremental hasher state is the concatenated
update stream; `H` is the abstract digest of that stream. -/
def get_folder_signature (H : String → Nat)
    (file_hashes : List (String × String)) : Nat :=
  H ((sortedItems file_hashes).foldl
      (fun acc kv =>
        if kv.2.startsWith "Error:" then acc else acc ++ kv.1 ++ kv.2)
      "")

/-- A concrete digest for witnesses: injective on lists of bytes < 99. -/
def demoHash (l : List Nat) : Nat :=
  l.foldl (fun a b => a * 100 + b + 1) 1

/-- A concrete string digest for witnesses. -/
def demoStrHash (s : String) : Nat := s.length

/-! ## Association-list dictionary lemmas -/

theorem dlookup_dictInsert {α β : Type} [DecidableEq α] (k ik : α) (v : β)
    (d : List (α × List β)) :
    dlookup k (dictInsert ik v d) =
      if ik = k then some ((dlookup k d).getD [] ++ [v]) else dlookup k d := by
  induction d with
  | nil =>
    by_cases h : ik = k <;> simp [dictInsert, dlookup, h]
  | cons e rest ih =>
    obtain ⟨ek, evs⟩ := e
    by_cases he : ek = ik
    · subst he
      by_cases hk : ek = k <;> simp [dictInsert, dlookup, hk]
    · by_cases hk : ek = k
      · subst hk
        have hik : ¬ ik = ek := fun h => he h.symm
        simp [dictInsert, dlookup, he, hik]
      · simp [dictInsert, dlookup, he, hk, ih]

theorem dkeys_dictInsert {α β : Type} [DecidableEq α] (k : α) (v : β)
    (d : List (α × List β)) :
    dkeys (dictInsert k v d) =
      if k ∈ dkeys d then dkeys d else dkeys d ++ [k] := by
  induction d with
  | nil => simp [dictInsert, dkeys]
  | cons e rest ih =>
    obtain ⟨ek, evs⟩ := e
    by_cases he : ek = k
    · subst he
      simp [dictInsert, dkeys]
    · have : ¬ k = ek := fun h => he h.symm
      simp only [dictInsert, if_neg he, dkeys, List.map_cons, List.mem_cons,
        this, false_or]
      simp only [dkeys] at ih
      rw [ih]
      by_cases hm : k ∈ rest.map Prod.fst <;> simp [hm]

theorem nodup_dkeys_dictInsert {α β : Type} [DecidableEq α] (k : α) (v : β)
    (d : List (α × List β)) (hnd : (dkeys d).Nodup) :
    (dkeys (dictInsert k v d)).Nodup := by
  rw [dkeys_dictInsert]
  by_cases hm : k ∈ dkeys d
  · simpa [hm]
  · simp [hm, List.nodup_append, hnd]

theorem dlookup_eq_some_of_mem {α β : Type} [DecidableEq α]
    {d : List (α × List β)} (hnd : (dkeys d).Nodup) {k : α} {vs : List β}
    (h : (k, vs) ∈ d) : dlookup k d = some vs := by
  induction d with
  | nil => simp at h
  | cons e rest ih =>
    obtain ⟨ek, evs⟩ := e
    simp only [dkeys, List.map_cons, List.nodup_cons] at hnd
    rcases List.mem_cons.mp h with h1 | h1
    · obtain ⟨h2, h3⟩ := Prod.mk.inj h1
      simp [dlookup, h2, h3]
    · by_cases he : ek = k
      · subst he
        exact absurd (List.mem_map.mpr ⟨(ek, vs), h1, rfl⟩) hnd.1
      · simpa [dlookup, he] using ih (by simpa [dkeys] using hnd.2) h1

theorem mem_of_dlookup_eq_some {α β : Type} [DecidableEq α]
    {d : List (α × List β)} {k : α} {vs : List β}
    (h : dlookup k d = some vs) : (k, vs) ∈ d := by
  induction d with
  | nil => simp [dlookup] at h
  | cons e rest ih =>
    obtain ⟨ek, evs⟩ := e
    by_cases he : ek = k
    · subst he
      simp only [dlookup, if_pos trivial, eq_self_iff_true, if_true,
        Option.some.injEq] at h
      subst h
      exact List.mem_cons_self _ _
    · simp only [dlookup, if_neg he] at h
      exact List.mem_cons_of_mem _ (ih h)

theorem dict_value_unique {α β : Type} [DecidableEq α]
    {d : List (α × List β)} (hnd : (dkeys d).Nodup) {k : α} {v1 v2 : List β}
    (h1 : (k, v1) ∈ d) (h2 : (k, v2) ∈ d) : v1 = v2 := by
  have e1 := dlookup_eq_some_of_mem hnd h1
  have e2 := dlookup_eq_some_of_mem hnd h2
  rw [e1] at e2
  exact (Option.some.injEq _ _ ▸ e2)

theorem two_le_length_of_mem_ne {γ : Type} {l : List γ} {a b : γ}
    (ha : a ∈ l) (hb : b ∈ l) (hne : a ≠ b) : 1 < l.length := by
  match l with
  | [] => simp at ha
  | [x] =>
    simp only [List.mem_singleton] at ha hb
    exact absurd (ha.trans hb.symm) hne
  | x :: y :: xs => simp [Nat.lt_add_of_pos_left]

theorem dlookup_foldl_dictInsert {α β : Type} [DecidableEq α] (k : α)
    (l : List (α × β)) :
    ∀ d : List (α × List β),
      dlookup k (l.foldl (fun d kv => dictInsert kv.1 kv.2 d) d) =
        match dlookup k d with
        | some ws =>
          some (ws ++ (l.filter (fun kv => decide (kv.1 = k))).map Prod.snd)
        | none =>
          if (l.filter (fun kv => decide (kv.1 = k))).isEmpty then none
          else some ((l.filter (fun kv => decide (kv.1 = k))).map Prod.snd) := by
  induction l with
  | nil =>
    intro d
    cases hdk : dlookup k d <;> simp [hdk]
  | cons ab l ih =>
    intro d
    obtain ⟨a, b⟩ := ab
    simp only [List.foldl_cons]
    rw [ih (dictInsert a b d), dlookup_dictInsert]
    by_cases ha : a = k
    · subst ha
      cases hdk : dlookup a d <;>
        simp [hdk, List.filter_cons, List.append_assoc]
    · have hfc : List.filter (fun kv => decide (kv.1 = k)) ((a, b) :: l) =
          List.filter (fun kv => decide (kv.1 = k)) l := by
        simp [List.filter_cons, ha]
      cases hdk : dlookup k d
      · simp only [hdk]
        rw [hfc, if_neg ha]
      · simp [hdk, ha]

theorem dlookup_buildDict {α β : Type} [DecidableEq α] (k : α)
    (l : List (α × β)) :
    dlookup k (buildDict l) =
      if (l.filter (fun kv => decide (kv.1 = k))).isEmpty then none
      else some ((l.filter (fun kv => decide (kv.1 = k))).map Prod.snd) := by
  have h := dlookup_foldl_dictInsert k l []
  simpa [buildDict, dlookup] using h

theorem nodup_dkeys_foldl {α β : Type} [DecidableEq α] (l : List (α × β)) :
    ∀ d : List (α × List β), (dkeys d).Nodup →
      (dkeys (l.foldl (fun d kv => dictInsert kv.1 kv.2 d) d)).Nodup := by
  induction l with
  | nil => intro d hd; simpa using hd
  | cons ab l ih =>
    intro d hd
    exact ih _ (nodup_dkeys_dictInsert _ _ _ hd)

theorem nodup_dkeys_buildDict {α β : Type} [DecidableEq α]
    (l : List (α × β)) : (dkeys (buildDict l)).Nodup :=
  nodup_dkeys_foldl l [] (by simp [dkeys])

theorem mem_buildDict_iff {α β : Type} [DecidableEq α] (l : List (α × β))
    (k : α) (vs : List β) :
    (k, vs) ∈ buildDict l ↔
      vs = (l.filter (fun kv => decide (kv.1 = k))).map Prod.snd ∧ vs ≠ [] := by
  constructor
  · intro h
    have hl := dlookup_eq_some_of_mem (nodup_dkeys_buildDict l) h
    rw [dlookup_buildDict] at hl
    by_cases he : (l.filter (fun kv => decide (kv.1 = k))).isEmpty
    · simp [he] at hl
    · simp only [he, if_false, Option.some.injEq, Bool.false_eq_true] at hl
      refine ⟨hl.symm, ?_⟩
      intro hc
      apply he
      rw [hc] at hl
      simp only [List.isEmpty_iff]
      exact List.map_eq_nil_iff.mp hl
  · rintro ⟨hv, hne⟩
    apply mem_of_dlookup_eq_some
    rw [dlookup_buildDict]
    have hfe : ¬ (l.filter (fun kv => decide (kv.1 = k))).isEmpty := by
      intro hc
      apply hne
      rw [hv]
      simp only [List.isEmpty_iff] at hc
      simp [hc]
    simp [hfe, hv]

theorem candidates_eq (groups : List (Nat × List FileEntry)) :
    candidates groups =
      (groups.filter (fun kv => decide (kv.2.length > 1))).flatMap Prod.snd := by
  have h : ∀ acc : List FileEntry,
      groups.foldl (fun acc kv => if kv.2.length > 1 then acc ++ kv.2 else acc)
          acc =
        acc ++
          (groups.filter (fun kv => decide (kv.2.length > 1))).flatMap
            Prod.snd := by
    induction groups with
    | nil => intro acc; simp
    | cons kv gs ih =>
      intro acc
      by_cases hl : kv.2.length > 1 <;>
        simp [List.filter_cons, hl, ih, List.append_assoc]
  simpa [candidates] using h []

theorem mem_candidates_iff (groups : List (Nat × List FileEntry))
    (f : FileEntry) :
    f ∈ candidates groups ↔
      ∃ kv ∈ groups, kv.2.length > 1 ∧ f ∈ kv.2 := by
  rw [candidates_eq]
  simp only [List.mem_flatMap, List.mem_filter, decide_eq_true_eq]
  constructor
  · rintro ⟨kv, ⟨hm, hl⟩, hf⟩
    exact ⟨kv, hm, hl, hf⟩
  · rintro ⟨kv, hm, hl, hf⟩
    exact ⟨kv, ⟨hm, hl⟩, hf⟩

theorem group_by_size_eq (files : List FileEntry) :
    group_by_size files =
      (buildDict
        ((files.filter (fun f => f.statOk)).map fun f => (f.content.length, f)),
       (files.filter (fun f => !f.statOk)).map FileEntry.path) := by
  have h : ∀ (d : List (Nat × List FileEntry)) (s : List String),
      files.foldl
          (fun acc f =>
            if f.statOk then (dictInsert f.content.length f acc.1, acc.2)
            else (acc.1, acc.2 ++ [f.path]))
          (d, s) =
        (((files.filter (fun f => f.statOk)).map
              fun f => (f.content.length, f)).foldl
          (fun d kv => dictInsert kv.1 kv.2 d) d,
         s ++ (files.filter (fun f => !f.statOk)).map FileEntry.path) := by
    induction files with
    | nil => intro d s; simp
    | cons f fs ih =>
      intro d s
      by_cases hst : f.statOk <;>
        simp [List.filter_cons, hst, ih, List.append_assoc]
  simpa [group_by_size, buildDict] using h [] []

theorem hash_fold_eq (rs : List (String × Option Nat)) :
    ∀ (d : List (Nat × List String)) (s : List String),
      rs.foldl
          (fun acc pr =>
            match pr.2 with
            | none => (acc.1, acc.2 ++ [pr.1])
            | some h => (dictInsert h pr.1 acc.1, acc.2))
          (d, s) =
        ((rs.filterMap (fun pr => pr.2.map (fun h => (h, pr.1)))).foldl
          (fun d kv => dictInsert kv.1 kv.2 d) d,
         s ++ rs.filterMap
            (fun pr => if pr.2.isNone then some pr.1 else none)) := by
  induction rs with
  | nil => intro d s; simp
  | cons pr rs ih =>
    intro d s
    obtain ⟨p, o⟩ := pr
    cases o <;> simp [List.filterMap_cons, ih, List.append_assoc]

theorem readChunks_flatten_aux (c : Nat) (hc : 0 < c) :
    ∀ (n : Nat) (bs : List Nat), bs.length ≤ n →
      (readChunks c bs).flatten = bs := by
  intro n
  induction n with
  | zero =>
    intro bs hb
    have hbs : bs = [] := List.eq_nil_of_length_eq_zero (Nat.le_zero.mp hb)
    subst hbs
    rw [readChunks]
    simp
  | succ n ih =>
    intro bs hb
    rw [readChunks]
    by_cases hbs : bs = []
    · simp [hbs]
    · have hcond : ¬ (bs = [] ∨ c = 0) := by
        push_neg
        exact ⟨hbs, Nat.pos_iff_ne_zero.mp hc⟩
      rw [dif_neg hcond]
      simp only [List.flatten_cons]
      rw [ih (bs.drop c) (by
        have hlen : 0 < bs.length := List.length_pos.mpr hbs
        simp only [List.length_drop]
        omega)]
      exact List.take_append_drop c bs

theorem readChunks_flatten (c : Nat) (hc : 0 < c) (bs : List Nat) :
    (readChunks c bs).flatten = bs :=
  readChunks_flatten_aux c hc bs.length bs le_rfl

theorem hash_file_mp_eq (H : List Nat → Nat) (c : Nat) (hc : 0 < c)
    (f : FileEntry) :
    hash_file_mp H c f =
      (f.path, if f.readOk then some (H f.content) else none) := by
  unfold hash_file_mp
  by_cases hr : f.readOk <;> simp [hr, readChunks_flatten c hc]

theorem results_filterMap_some (H : List Nat → Nat)
    (cand : List FileEntry) :
    ((cand.map (hash_file_mp H 8192)).filterMap
        (fun pr => pr.2.map (fun h => (h, pr.1)))) =
      (cand.filter (fun f => f.readOk)).map (fun f => (H f.content, f.path)) := by
  induction cand with
  | nil => simp
  | cons f fs ih =>
    by_cases hr : f.readOk <;>
      simp [hash_file_mp_eq H 8192 (by norm_num), hr, List.filter_cons, ih]

theorem results_filterMap_none (H : List Nat → Nat)
    (cand : List FileEntry) :
    ((cand.map (hash_file_mp H 8192)).filterMap
        (fun pr => if pr.2.isNone then some pr.1 else none)) =
      (cand.filter (fun f => !f.readOk)).map FileEntry.path := by
  induction cand with
  | nil => simp
  | cons f fs ih =>
    simp only [List.filterMap_map, Option.isNone_iff_eq_none] at ih ⊢
    simp only [List.filterMap_cons, Function.comp_apply,
      hash_file_mp_eq H 8192 (by norm_num)]
    by_cases hr : f.readOk <;> simp [hr, List.filter_cons, ih]

theorem hash_groups_in_parallel_ok (H : List Nat → Nat)
    (groups : List (Nat × List FileEntry))
    (hne : (candidates groups).isEmpty = false) :
    hash_groups_in_parallel H true groups =
      Except.ok
        ((buildDict
            (((candidates groups).filter (fun f => f.readOk)).map
              (fun f => (H f.content, f.path)))).filter
          (fun e => e.2.length > 1),
         ((candidates groups).filter (fun f => !f.readOk)).map
           FileEntry.path) := by
  unfold hash_groups_in_parallel
  simp only [hne, Bool.false_eq_true, if_false, if_true]
  rw [hash_fold_eq, results_filterMap_some, results_filterMap_none]
  simp [buildDict]

/-- Concrete files for witnesses. -/
def wA : FileEntry := ⟨"a", [0], 0, true, true, true⟩

/-- Concrete file sharing `wA`'s content but newer. -/
def wB : FileEntry := ⟨"b", [0], 5, true, true, true⟩

/-- Concrete file with a unique size. -/
def wC : FileEntry := ⟨"c", [1, 2], 2, true, true, true⟩

/-- Concrete unreadable file. -/
def wBad : FileEntry := ⟨"bad", [0], 0, true, false, true⟩

theorem filter_key_length_le_one {γ β : Type} [DecidableEq β] (g : γ → β)
    (k : β) (l : List γ) (h : (l.map g).Nodup) :
    (l.filter (fun x => decide (g x = k))).length ≤ 1 := by
  induction l with
  | nil => simp
  | cons x xs ih =>
    simp only [List.map_cons, List.nodup_cons] at h
    by_cases hx : g x = k
    · have hnil : xs.filter (fun y => decide (g y = k)) = [] := by
        rw [List.filter_eq_nil_iff]
        intro y hy hgy
        have hgyk : g y = k := by simpa using hgy
        exact h.1 (by
          rw [hx, ← hgyk]
          exact List.mem_map_of_mem g hy)
      simp [List.filter_cons, hx, hnil]
    · simp only [List.filter_cons, decide_eq_false hx, Bool.false_eq_true,
        if_false]
      exact ih h.2

/-- C2: when the candidate files have pairwise-distinct byte sizes, every
size group is a singleton, so the flattened candidate list built from
multi-member size groups is empty and the hashing stage returns the empty
result immediately — no file is hashed. -/
theorem C2_distinct_sizes_skip_hashing (H : List Nat → Nat)
    (files : List FileEntry)
    (hsz : (files.map (fun f => f.content.length)).Nodup) :
    candidates (group_by_size files).1 = [] ∧
    ∀ poolOk, hash_groups_in_parallel H poolOk (group_by_size files).1 =
      Except.ok ([], []) := by
  have hcand : candidates (group_by_size files).1 = [] := by
    rw [candidates_eq]
    have hfil : ((group_by_size files).1.filter
        (fun kv => decide (kv.2.length > 1))) = [] := by
      rw [List.filter_eq_nil_iff]
      rintro ⟨k, vs⟩ hm hlen
      rw [group_by_size_eq] at hm
      simp only at hm
      obtain ⟨hvs, hne⟩ := (mem_buildDict_iff _ _ _).mp hm
      have hle : vs.length ≤ 1 := by
        rw [hvs, List.length_map, List.filter_map]
        rw [List.length_map]
        have hnd : ((files.filter (fun f => f.statOk)).map
            (fun f => f.content.length)).Nodup :=
          hsz.sublist (List.Sublist.map _ (List.filter_sublist files))
        have := filter_key_length_le_one
          (fun f : FileEntry => f.content.length) k
          (files.filter (fun f => f.statOk)) hnd
        simpa [Function.comp] using this
      simp only [decide_eq_true_eq] at hlen
      omega
    rw [hfil]
    simp
  refine ⟨hcand, fun poolOk => ?_⟩
  unfold hash_groups_in_parallel
  simp [hcand]

/-- C2 witness: two concrete files of distinct sizes. -/
theorem C2_witness :
    candidates (group_by_size [wA, wC]).1 = [] ∧
    hash_groups_in_parallel demoHash true (group_by_size [wA, wC]).1 =
      Except.ok ([], []) :=
  ⟨(C2_distinct_sizes_skip_hashing demoHash [wA, wC] (by decide)).1,
   (C2_distinct_sizes_skip_hashing demoHash [wA, wC] (by decide)).2 true⟩

/-- C3: a candidate file whose open/read fails yields an absent digest from
the worker function instead of raising, is recorded in the skipped list,
appears in no duplicate group, and the batch still completes: the skipped
list is exactly the unreadable candidates, so every readable candidate was
processed. -/
theorem C3_unreadable_skipped (H : List Nat → Nat)
    (groups : List (Nat × List FileEntry)) (f : FileEntry)
    (hf : f ∈ candidates groups) (hread : f.readOk = false)
    (hpaths : ((candidates groups).map FileEntry.path).Nodup)
    (res : List (Nat × List String)) (sk : List String)
    (hres : hash_groups_in_parallel H true groups = Except.ok (res, sk)) :
    hash_file_mp H 8192 f = (f.path, none) ∧
    f.path ∈ sk ∧
    (∀ h ps, (h, ps) ∈ res → f.path ∉ ps) ∧
    sk = ((candidates groups).filter (fun g => !g.readOk)).map
      FileEntry.path := by
  have hne : (candidates groups).isEmpty = false := by
    cases hc : candidates groups with
    | nil => rw [hc] at hf; exact absurd hf (List.not_mem_nil f)
    | cons a l => simp [hc]
  rw [hash_groups_in_parallel_ok H groups hne] at hres
  simp only [Except.ok.injEq, Prod.mk.injEq] at hres
  obtain ⟨hres1, hres2⟩ := hres
  refine ⟨?_, ?_, ?_, ?_⟩
  · simp [hash_file_mp_eq H 8192 (by norm_num), hread]
  · rw [← hres2]
    exact List.mem_map_of_mem _ (List.mem_filter.mpr ⟨hf, by simp [hread]⟩)
  · intro h ps hmem hp
    rw [← hres1] at hmem
    have hbd := (List.mem_filter.mp hmem).1
    obtain ⟨hps, _⟩ := (mem_buildDict_iff _ _ _).mp hbd
    rw [hps] at hp
    obtain ⟨kv, hkv, hkvp⟩ := List.mem_map.mp hp
    have hkv2 := (List.mem_filter.mp hkv).1
    obtain ⟨g, hg, hgkv⟩ := List.mem_map.mp hkv2
    have hgcand : g ∈ candidates groups := (List.mem_filter.mp hg).1
    have hgread : g.readOk = true := by
      have := (List.mem_filter.mp hg).2
      simpa using this
    have hgp : g.path = f.path := by
      rw [← hgkv] at hkvp
      exact hkvp
    have : g = f := List.inj_on_of_nodup_map hpaths hgcand hf hgp
    rw [this] at hgread
    rw [hread] at hgread
    exact Bool.false_ne_true hgread
  · exact hres2.symm

theorem mem_group_by_size_iff (files : List FileEntry)
    (hstat : ∀ f ∈ files, f.statOk = true) (k : Nat) (vs : List FileEntry) :
    (k, vs) ∈ (group_by_size files).1 ↔
      vs = files.filter (fun g => decide (g.content.length = k)) ∧
        vs ≠ [] := by
  rw [group_by_size_eq]
  simp only
  rw [List.filter_eq_self.mpr hstat, mem_buildDict_iff, List.filter_map,
    List.map_map]
  simp [Function.comp_def]

theorem candidates_subset (files : List FileEntry)
    (hstat : ∀ f ∈ files, f.statOk = true) :
    ∀ g ∈ candidates (group_by_size files).1, g ∈ files := by
  intro g hg
  obtain ⟨kv, hkv, _, hgm⟩ := (mem_candidates_iff _ _).mp hg
  obtain ⟨k, vs⟩ := kv
  obtain ⟨hvs, _⟩ := (mem_group_by_size_iff files hstat k vs).mp hkv
  rw [hvs] at hgm
  exact (List.mem_filter.mp hgm).1

theorem mem_candidates_of_dup (files : List FileEntry)
    (hstat : ∀ x ∈ files, x.statOk = true) (f g : FileEntry)
    (hf : f ∈ files) (hg : g ∈ files) (hcont : f.content = g.content)
    (hfg : f ≠ g) : f ∈ candidates (group_by_size files).1 := by
  have hfvs : f ∈ files.filter
      (fun x => decide (x.content.length = f.content.length)) :=
    List.mem_filter.mpr ⟨hf, by simp⟩
  have hgvs : g ∈ files.filter
      (fun x => decide (x.content.length = f.content.length)) :=
    List.mem_filter.mpr ⟨hg, by simp [hcont]⟩
  apply (mem_candidates_iff _ _).mpr
  refine ⟨(f.content.length, files.filter
      (fun x => decide (x.content.length = f.content.length))), ?_, ?_, hfvs⟩
  · exact (mem_group_by_size_iff files hstat _ _).mpr
      ⟨rfl, List.ne_nil_of_mem hfvs⟩
  · exact two_le_length_of_mem_ne hfvs hgvs hfg

theorem mem_hash_dict_iff (H : List Nat → Nat) (cand : List FileEntry)
    (hread : ∀ g ∈ cand, g.readOk = true) (h : Nat) (ps : List String) :
    (h, ps) ∈ buildDict ((cand.filter (fun f => f.readOk)).map
        (fun f => (H f.content, f.path))) ↔
      ps = (cand.filter (fun g => decide (H g.content = h))).map
        FileEntry.path ∧ ps ≠ [] := by
  rw [List.filter_eq_self.mpr hread, mem_buildDict_iff, List.filter_map,
    List.map_map]
  simp [Function.comp_def]

/-- C1: assuming no stat/read failures, distinct paths, and a digest
injective on the contents present, the two-stage pipeline puts any two
files with identical content into a common duplicate group, every path lies
in at most one group, and no group mixes two different contents. -/
theorem C1_identical_content_one_group (H : List Nat → Nat)
    (files : List FileEntry)
    (hok : ∀ f ∈ files, f.statOk = true ∧ f.readOk = true)
    (hpaths : (files.map FileEntry.path).Nodup)
    (hinj : ∀ f ∈ files, ∀ g ∈ files,
      H f.content = H g.content → f.content = g.content)
    (res : List (Nat × List String)) (sk : List String)
    (hres : hash_groups_in_parallel H true (group_by_size files).1 =
      Except.ok (res, sk)) :
    (∀ f ∈ files, ∀ g ∈ files, f.content = g.content → f.path ≠ g.path →
      ∃ h ps, (h, ps) ∈ res ∧ f.path ∈ ps ∧ g.path ∈ ps) ∧
    (∀ p h1 ps1 h2 ps2, (h1, ps1) ∈ res → (h2, ps2) ∈ res →
      p ∈ ps1 → p ∈ ps2 → h1 = h2 ∧ ps1 = ps2) ∧
    (∀ h ps, (h, ps) ∈ res → ∀ f ∈ files, ∀ g ∈ files,
      f.path ∈ ps → g.path ∈ ps → f.content = g.content) := by
  have hstat : ∀ x ∈ files, x.statOk = true := fun x hx => (hok x hx).1
  have hread : ∀ x ∈ files, x.readOk = true := fun x hx => (hok x hx).2
  have hcandsub := candidates_subset files hstat
  have hcandread : ∀ x ∈ candidates (group_by_size files).1,
      x.readOk = true := fun x hx => hread x (hcandsub x hx)
  by_cases hc : (candidates (group_by_size files).1).isEmpty
  · have hres0 : res = [] := by
      unfold hash_groups_in_parallel at hres
      simp only [hc, if_true] at hres
      simp only [Except.ok.injEq, Prod.mk.injEq] at hres
      exact hres.1.symm
    subst hres0
    refine ⟨?_, ?_, ?_⟩
    · intro f hf g hg hcont hpne
      exfalso
      have hfg : f ≠ g := fun e => hpne (by rw [e])
      have hfc := mem_candidates_of_dup files hstat f g hf hg hcont hfg
      rw [List.isEmpty_iff.mp hc] at hfc
      exact absurd hfc (List.not_mem_nil f)
    · intro p h1 ps1 h2 ps2 hm1
      exact absurd hm1 (List.not_mem_nil _)
    · intro h ps hm
      exact absurd hm (List.not_mem_nil _)
  · have hcf : (candidates (group_by_size files).1).isEmpty = false :=
      Bool.eq_false_iff.mpr hc
    rw [hash_groups_in_parallel_ok H _ hcf] at hres
    simp only [Except.ok.injEq, Prod.mk.injEq] at hres
    obtain ⟨hres1, hres2⟩ := hres
    have memres : ∀ h ps, (h, ps) ∈ res ↔
        ((h, ps) ∈ buildDict
            (((candidates (group_by_size files).1).filter
                (fun f => f.readOk)).map
              (fun f => (H f.content, f.path))) ∧ ps.length > 1) := by
      intro h ps
      rw [← hres1, List.mem_filter]
      simp
    refine ⟨?_, ?_, ?_⟩
    · intro f hf g hg hcont hpne
      have hfg : f ≠ g := fun e => hpne (by rw [e])
      have hfc := mem_candidates_of_dup files hstat f g hf hg hcont hfg
      have hgc := mem_candidates_of_dup files hstat g f hg hf hcont.symm
        (fun e => hfg e.symm)
      have hfps : f.path ∈ ((candidates (group_by_size files).1).filter
          (fun x => decide (H x.content = H f.content))).map
            FileEntry.path :=
        List.mem_map_of_mem _ (List.mem_filter.mpr ⟨hfc, by simp⟩)
      have hgps : g.path ∈ ((candidates (group_by_size files).1).filter
          (fun x => decide (H x.content = H f.content))).map
            FileEntry.path :=
        List.mem_map_of_mem _ (List.mem_filter.mpr ⟨hgc, by simp [hcont]⟩)
      refine ⟨H f.content,
        ((candidates (group_by_size files).1).filter
          (fun x => decide (H x.content = H f.content))).map
            FileEntry.path, ?_, hfps, hgps⟩
      rw [memres]
      refine ⟨(mem_hash_dict_iff H _ hcandread _ _).mpr
        ⟨rfl, List.ne_nil_of_mem hfps⟩, ?_⟩
      exact two_le_length_of_mem_ne hfps hgps hpne
    · intro p h1 ps1 h2 ps2 hm1 hm2 hp1 hp2
      have hb1 := ((memres h1 ps1).mp hm1).1
      have hb2 := ((memres h2 ps2).mp hm2).1
      obtain ⟨hps1, _⟩ := (mem_hash_dict_iff H _ hcandread _ _).mp hb1
      obtain ⟨hps2, _⟩ := (mem_hash_dict_iff H _ hcandread _ _).mp hb2
      obtain ⟨c1, hc1f, hc1p⟩ := List.mem_map.mp (hps1 ▸ hp1)
      obtain ⟨c2, hc2f, hc2p⟩ := List.mem_map.mp (hps2 ▸ hp2)
      have hc1c : c1 ∈ candidates (group_by_size files).1 :=
        (List.mem_filter.mp hc1f).1
      have hc2c : c2 ∈ candidates (group_by_size files).1 :=
        (List.mem_filter.mp hc2f).1
      have hc1h : H c1.content = h1 := by
        have := (List.mem_filter.mp hc1f).2
        simpa using this
      have hc2h : H c2.content = h2 := by
        have := (List.mem_filter.mp hc2f).2
        simpa using this
      have hc12 : c1 = c2 :=
        List.inj_on_of_nodup_map hpaths (hcandsub c1 hc1c) (hcandsub c2 hc2c)
          (by rw [hc1p, hc2p])
      have hh : h1 = h2 := by rw [← hc1h, ← hc2h, hc12]
      refine ⟨hh, ?_⟩
      exact dict_value_unique (nodup_dkeys_buildDict _) hb1 (hh ▸ hb2)
    · intro h ps hm f hf g hg hfp hgp
      have hb := ((memres h ps).mp hm).1
      obtain ⟨hps, _⟩ := (mem_hash_dict_iff H _ hcandread _ _).mp hb
      obtain ⟨c1, hc1f, hc1p⟩ := List.mem_map.mp (hps ▸ hfp)
      obtain ⟨c2, hc2f, hc2p⟩ := List.mem_map.mp (hps ▸ hgp)
      have hc1c := (List.mem_filter.mp hc1f).1
      have hc2c := (List.mem_filter.mp hc2f).1
      have hc1h : H c1.content = h := by
        have := (List.mem_filter.mp hc1f).2
        simpa using this
      have hc2h : H c2.content = h := by
        have := (List.mem_filter.mp hc2f).2
        simpa using this
      have he1 : c1 = f :=
        List.inj_on_of_nodup_map hpaths (hcandsub c1 hc1c) hf hc1p
      have he2 : c2 = g :=
        List.inj_on_of_nodup_map hpaths (hcandsub c2 hc2c) hg hc2p
      apply hinj f hf g hg
      rw [← he1, ← he2, hc1h, hc2h]

/-- C1 witness: two identical files and one same-size different file. -/
theorem C1_witness :
    ∃ h ps, (h, ps) ∈ [(demoHash [0], ["a", "b"])] ∧
      "a" ∈ ps ∧ "b" ∈ ps := by
  have h := C1_identical_content_one_group demoHash [wA, wB]
    (by decide) (by decide) (by decide) [(demoHash [0], ["a", "b"])] []
    (by rw [hash_groups_in_parallel_ok demoHash _ (by decide)]; rfl)
  exact h.1 wA (by decide) wB (by decide) (by decide) (by decide)

/-- C3 witness: concrete batch with one readable and one unreadable file. -/
theorem C3_witness :
    hash_file_mp demoHash 8192 wBad = ("bad", none) ∧
    "bad" ∈ (["bad"] : List String) ∧
    (∀ h ps, (h, ps) ∈ ([] : List (Nat × List String)) → "bad" ∉ ps) ∧
    (["bad"] : List String) =
      ((candidates [(1, [wA, wBad])]).filter (fun g => !g.readOk)).map
        FileEntry.path := by
  have h := C3_unreadable_skipped demoHash [(1, [wA, wBad])] wBad
    (by decide) (by decide) (by decide) [] ["bad"]
    (by rw [hash_groups_in_parallel_ok demoHash _ (by decide)]; rfl)
  simpa [wBad] using h

/-- C7: the streaming chunked computation equals hashing the whole content
at once, for every positive chunk size: the worker feeds exactly the file's
bytes to the incremental hasher, and `get_file_hash` (4096-byte chunks)
likewise. -/
theorem C7_chunked_eq_whole (H : List Nat → Nat) :
    (∀ c, 0 < c → ∀ f : FileEntry, f.readOk = true →
      hash_file_mp H c f = (f.path, some (H f.content))) ∧
    (∀ content : List Nat, get_file_hash H content = H content) := by
  constructor
  · intro c hc f hr
    rw [hash_file_mp_eq H c hc]
    simp [hr]
  · intro content
    unfold get_file_hash
    rw [readChunks_flatten 4096 (by norm_num)]

/-- C7 witness: chunk size 3 on a concrete file, and a concrete content. -/
theorem C7_witness :
    hash_file_mp demoHash 3 wA = ("a", some (demoHash [0])) ∧
    get_file_hash demoHash [1, 2, 3] = demoHash [1, 2, 3] := by
  have h := C7_chunked_eq_whole demoHash
  exact ⟨by simpa [wA] using h.1 3 (by norm_num) wA (by decide),
         h.2 [1, 2, 3]⟩

/-- C5 counterexample: with candidates present and pool construction
failing, the hashing stage raises rather than producing the result the
successful-pool path produces, refuting the claimed sequential fallback. -/
theorem C5_counterexample :
    hash_groups_in_parallel demoHash false [(1, [wA, wB])] =
      Except.error "pool initialization failed" ∧
    hash_groups_in_parallel demoHash false [(1, [wA, wB])] ≠
      hash_groups_in_parallel demoHash true [(1, [wA, wB])] := by
  have h1 : hash_groups_in_parallel demoHash false [(1, [wA, wB])] =
      Except.error "pool initialization failed" := rfl
  refine ⟨h1, ?_⟩
  rw [h1, hash_groups_in_parallel_ok demoHash _ (by decide)]
  simp

/-- C5 amended: when `mp.Pool` initialization fails and there is at least
one candidate to hash, no sequential fallback exists: the exception
propagates out of the hashing stage and the run aborts. -/
theorem C5_amended_pool_failure_aborts (H : List Nat → Nat)
    (groups : List (Nat × List FileEntry))
    (hne : candidates groups ≠ []) :
    hash_groups_in_parallel H false groups =
      Except.error "pool initialization failed" := by
  unfold hash_groups_in_parallel
  simp [List.isEmpty_iff, hne]

/-- C5 amended witness. -/
theorem C5_amended_witness :
    hash_groups_in_parallel demoHash false [(2, [wA, wB, wC])] =
      Except.error "pool initialization failed" :=
  C5_amended_pool_failure_aborts demoHash [(2, [wA, wB, wC])] (by decide)

/-- C4 counterexample: two concrete refutations of the claim.  For a
missing root folder, xfindupy's `main` reports the error once and produces
no JSON and no deletions, but returns normally, so the process exit code is
0 — not non-zero as the claim states.  For a root that exists but is a
regular file, xfindupy reports no error at all and completes normally with
exit code 0 (the walk yields nothing), and findup's `find_duplicate_files`
does not raise either — it returns an empty result. -/
theorem C4_counterexample :
    (xfindupy_main demoHash false true [] false true (fun _ => true)).printed =
      ["Folder does not exist."] ∧
    (xfindupy_main demoHash false true [] false true
      (fun _ => true)).jsonWritten = none ∧
    (xfindupy_main demoHash false true [] false true
      (fun _ => true)).deletedPaths = [] ∧
    (xfindupy_main demoHash false true [] false true (fun _ => true)).exitCode =
      0 ∧
    xfindupy_main demoHash true false [wA, wB] false true (fun _ => true) =
      { printed := [], exitCode := 0, jsonWritten := none
        deletedPaths := [] } ∧
    find_duplicate_files demoHash true false [wA, wB] = Except.ok [] :=
  ⟨rfl, rfl, rfl, rfl, rfl, rfl⟩

/-- C4 amended: only the click-validated dupf command is fatal with a
non-zero exit (usage code 2) for both invalid-root variants.  For a root
that does not exist, xfindupy and findup do stop with the error reported
once and no partial output, but xfindupy returns normally from `main`, so
its process exits with code 0, while findup raises.  For a root that
exists but is not a directory, xfindupy and findup report no error at all:
they accept it, traverse nothing, and complete normally with exit code 0,
an empty result, no JSON, and no deletions. -/
theorem C4_amended_invalid_root (H : List Nat → Nat)
    (files : List FileEntry) (autoDelete poolOk : Bool)
    (removeOk : String → Bool) :
    (∀ rootIsDir,
      xfindupy_main H false rootIsDir files autoDelete poolOk removeOk =
        { printed := ["Folder does not exist."], exitCode := 0
          jsonWritten := none, deletedPaths := [] }) ∧
    (∀ rootIsDir, find_duplicate_files H false rootIsDir files =
      Except.error "Directory does not exist") ∧
    xfindupy_main H true false files autoDelete poolOk removeOk =
      { printed := [], exitCode := 0, jsonWritten := none
        deletedPaths := [] } ∧
    find_duplicate_files H true false files = Except.ok [] ∧
    remove_duplicates H false files = (2, none) :=
  ⟨fun _ => rfl, fun _ => rfl, rfl, rfl, rfl⟩

mutual

theorem collect_isAbs : ∀ (root : PathM) (t : FSTree),
    ∀ p ∈ collect_all_files root t, p.isAbs = root.isAbs
  | root, FSTree.node dirs files => by
    intro p hp
    rw [collect_all_files] at hp
    rcases List.mem_append.mp hp with h | h
    · obtain ⟨f, _, hf⟩ := List.mem_map.mp h
      rw [← hf]
    · exact collectSubdirs_isAbs root dirs p h

theorem collectSubdirs_isAbs : ∀ (root : PathM)
    (ds : List (String × FSTree)),
    ∀ p ∈ collectSubdirs root ds, p.isAbs = root.isAbs
  | root, [] => by
    intro p hp
    rw [collectSubdirs] at hp
    exact absurd hp (List.not_mem_nil p)
  | root, d :: ds => by
    intro p hp
    rw [collectSubdirs] at hp
    rcases List.mem_append.mp hp with h | h
    · by_cases he : EXCLUDED_DIRS.contains d.1
      · rw [if_pos he] at h
        exact absurd h (List.not_mem_nil p)
      · rw [if_neg he] at h
        exact collect_isAbs ⟨root.isAbs, root.comps ++ [d.1]⟩ d.2 p h
    · exact collectSubdirs_isAbs root ds p h

end

/-- C8 counterexample: with a relative root directory argument, the
collector produces a relative path, so the claim that every produced path
is absolute regardless of the root's form is false. -/
theorem C8_counterexample :
    collect_all_files ⟨false, ["d"]⟩ (FSTree.node [] ["x"]) =
      [⟨false, ["d", "x"]⟩] ∧
    (⟨false, ["d", "x"]⟩ : PathM).isAbs = false := by
  constructor
  · rw [collect_all_files, collectSubdirs]
    simp
  · rfl

/-- C8 amended: every path the collector produces extends the root argument
as given, so it is absolute exactly when the root argument was absolute;
with a relative root the produced paths (and hence the path strings that
flow into the JSON export) are relative. -/
theorem C8_amended_paths_follow_root (root : PathM) (t : FSTree)
    (p : PathM) (hp : p ∈ collect_all_files root t) :
    p.isAbs = root.isAbs :=
  collect_isAbs root t p hp

/-- C8 amended witness: an absolute root yields an absolute path. -/
theorem C8_amended_witness :
    (⟨true, ["r", "x"]⟩ : PathM).isAbs = (⟨true, ["r"]⟩ : PathM).isAbs :=
  C8_amended_paths_follow_root ⟨true, ["r"]⟩ (FSTree.node [] ["x"])
    ⟨true, ["r", "x"]⟩ (by rw [collect_all_files, collectSubdirs]; simp)

theorem pairLe_total : ∀ a b : String × String, pairLe a b ∨ pairLe b a := by
  intro a b
  rcases lt_trichotomy a.1 b.1 with h | h | h
  · exact Or.inl (Or.inl h)
  · rcases le_total a.2 b.2 with h2 | h2
    · exact Or.inl (Or.inr ⟨h, h2⟩)
    · exact Or.inr (Or.inr ⟨h.symm, h2⟩)
  · exact Or.inr (Or.inl h)

theorem pairLe_trans :
    ∀ a b c : String × String, pairLe a b → pairLe b c → pairLe a c := by
  intro a b c hab hbc
  rcases hab with h1 | ⟨h1, h1'⟩ <;> rcases hbc with h2 | ⟨h2, h2'⟩
  · exact Or.inl (h1.trans h2)
  · exact Or.inl (h2 ▸ h1)
  · exact Or.inl (h1 ▸ h2)
  · exact Or.inr ⟨h1.trans h2, h1'.trans h2'⟩

theorem pairLe_antisymm :
    ∀ a b : String × String, pairLe a b → pairLe b a → a = b := by
  intro a b hab hba
  rcases hab with h1 | ⟨h1, h1'⟩ <;> rcases hba with h2 | ⟨h2, h2'⟩
  · exact absurd (h1.trans h2) (lt_irrefl a.1)
  · exact absurd h1 (h2 ▸ lt_irrefl b.1)
  · exact absurd h2 (h1 ▸ lt_irrefl a.1)
  · exact Prod.ext h1 (le_antisymm h1' h2')

instance : IsTotal (String × String) pairLe := ⟨pairLe_total⟩

instance : IsTrans (String × String) pairLe := ⟨pairLe_trans⟩

instance : IsAntisymm (String × String) pairLe := ⟨pairLe_antisymm⟩

/-- C10: the folder signature does not depend on the enumeration order of
the relative-path/digest pairs: the pairs are sorted before being combined
into the master hash, so any two enumerations of the same mapping give the
same signature. -/
theorem C10_signature_order_independent (H : String → Nat)
    (l1 l2 : List (String × String)) (hperm : l1.Perm l2) :
    get_folder_signature H l1 = get_folder_signature H l2 := by
  unfold get_folder_signature
  have hs : sortedItems l1 = sortedItems l2 := by
    unfold sortedItems
    exact List.eq_of_perm_of_sorted
      (((List.perm_insertionSort pairLe l1).trans hperm).trans
        (List.perm_insertionSort pairLe l2).symm)
      (List.sorted_insertionSort pairLe l1)
      (List.sorted_insertionSort pairLe l2)
  rw [hs]

/-- C10 witness: two enumeration orders of a concrete two-file mapping. -/
theorem C10_witness :
    get_folder_signature demoStrHash [("a", "1"), ("b", "2")] =
      get_folder_signature demoStrHash [("b", "2"), ("a", "1")] :=
  C10_signature_order_independent demoStrHash _ _
    (List.Perm.swap ("b", "2") ("a", "1") [])

theorem sortByMtimeDesc_cons (x : FileEntry) (xs : List FileEntry) :
    sortByMtimeDesc (x :: xs) = insertDesc x (sortByMtimeDesc xs) := rfl

theorem sortByMtimeDesc_head_max (l : List FileEntry) (hl : l ≠ []) :
    ∃ k rest, sortByMtimeDesc l = k :: rest ∧
      ∀ f ∈ l, f.mtime ≤ k.mtime := by
  induction l with
  | nil => exact absurd rfl hl
  | cons x xs ih =>
    by_cases hxs : xs = []
    · subst hxs
      refine ⟨x, [], rfl, ?_⟩
      intro f hf
      rw [List.mem_singleton.mp hf]
    · obtain ⟨k, rest, hs, hmax⟩ := ih hxs
      rw [sortByMtimeDesc_cons, hs]
      by_cases hk : k.mtime ≤ x.mtime
      · refine ⟨x, k :: rest, ?_, ?_⟩
        · rw [insertDesc, if_pos hk]
        · intro f hf
          rcases List.mem_cons.mp hf with h | h
          · rw [h]
          · exact (hmax f h).trans hk
      · refine ⟨k, insertDesc x rest, ?_, ?_⟩
        · rw [insertDesc, if_neg hk]
        · intro f hf
          rcases List.mem_cons.mp hf with h | h
          · rw [h]; omega
          · exact hmax f h

/-- The files that the deletion pass of `find_and_delete_duplicates`
attempts to remove: for each multi-member digest group, everything after
the newest member. -/
def deletionTargets (groups : List (Nat × List FileEntry)) :
    List FileEntry :=
  groups.flatMap
    (fun kv => if kv.2.length > 1 then (sortByMtimeDesc kv.2).tail else [])

theorem delete_fold_eq (ts : List FileEntry) :
    ∀ a : DelStats,
      ts.foldl
          (fun a f =>
            if f.deleteOk then
              { a with
                deletedCount := a.deletedCount + 1
                totalDeletedSize := a.totalDeletedSize + f.content.length
                deletedPaths := a.deletedPaths ++ [f.path] }
            else a)
          a =
        { a with
          deletedCount :=
            a.deletedCount + (ts.filter (fun f => f.deleteOk)).length
          totalDeletedSize := a.totalDeletedSize +
            ((ts.filter (fun f => f.deleteOk)).map
              (fun f => f.content.length)).sum
          deletedPaths := a.deletedPaths ++
            (ts.filter (fun f => f.deleteOk)).map FileEntry.path } := by
  induction ts with
  | nil => intro a; simp
  | cons f ts ih =>
    intro a
    by_cases hd : f.deleteOk
    · rw [List.foldl_cons, if_pos hd, ih]
      simp only [List.filter_cons, hd, if_true, eq_self_iff_true,
        List.length_cons, List.map_cons, List.sum_cons, List.cons_append,
        DelStats.mk.injEq, List.append_assoc, List.singleton_append,
        true_and, and_true]
      refine ⟨by omega, by omega, by simp [List.append_assoc]⟩
    · rw [List.foldl_cons, if_neg hd, ih]
      simp only [List.filter_cons, hd, Bool.false_eq_true, if_false]

theorem dupf_deleteGroup_eq (acc : DelStats) (fs : List FileEntry) :
    dupf_deleteGroup acc fs =
      { duplicateCount := acc.duplicateCount + (fs.length - 1)
        deletedCount := acc.deletedCount +
          ((sortByMtimeDesc fs).tail.filter (fun f => f.deleteOk)).length
        totalDeletedSize := acc.totalDeletedSize +
          (((sortByMtimeDesc fs).tail.filter (fun f => f.deleteOk)).map
            (fun f => f.content.length)).sum
        deletedPaths := acc.deletedPaths ++
          ((sortByMtimeDesc fs).tail.filter (fun f => f.deleteOk)).map
            FileEntry.path } := by
  unfold dupf_deleteGroup
  rw [delete_fold_eq]

theorem dupf_fold_eq (groups : List (Nat × List FileEntry)) :
    ∀ a : DelStats,
      groups.foldl
          (fun acc kv =>
            if kv.2.length > 1 then dupf_deleteGroup acc kv.2 else acc) a =
        { duplicateCount := a.duplicateCount +
            ((groups.filter (fun kv => decide (kv.2.length > 1))).map
              (fun kv => kv.2.length - 1)).sum
          deletedCount := a.deletedCount +
            ((deletionTargets groups).filter (fun f => f.deleteOk)).length
          totalDeletedSize := a.totalDeletedSize +
            (((deletionTargets groups).filter (fun f => f.deleteOk)).map
              (fun f => f.content.length)).sum
          deletedPaths := a.deletedPaths ++
            ((deletionTargets groups).filter (fun f => f.deleteOk)).map
              FileEntry.path } := by
  induction groups with
  | nil => intro a; simp [deletionTargets]
  | cons kv gs ih =>
    intro a
    rw [List.foldl_cons]
    by_cases hl : kv.2.length > 1
    · rw [if_pos hl, dupf_deleteGroup_eq, ih]
      have hdt : deletionTargets (kv :: gs) =
          (sortByMtimeDesc kv.2).tail ++ deletionTargets gs := by
        unfold deletionTargets
        rw [List.flatMap_cons, if_pos hl]
      rw [hdt]
      simp only [List.filter_append, List.map_append, List.sum_append,
        List.length_append, List.filter_cons, decide_eq_true_eq, hl,
        if_true, List.map_cons, List.sum_cons, DelStats.mk.injEq,
        List.append_assoc]
      refine ⟨by omega, by omega, by omega, trivial⟩
    · rw [if_neg hl, ih]
      have hdt : deletionTargets (kv :: gs) = deletionTargets gs := by
        unfold deletionTargets
        rw [List.flatMap_cons, if_neg hl]
        simp
      rw [hdt]
      simp only [List.filter_cons, decide_eq_true_eq, hl, if_false]

/-- C9: a file whose deletion attempt raises contributes to neither counter
while the rest are still processed: on return, the deleted count, the
reclaimed byte total, and the deleted paths are exactly the number, the
size sum, and the paths of the targeted files whose deletion succeeded. -/
theorem C9_deletion_accounting (H : List Nat → Nat)
    (files : List FileEntry) :
    (find_and_delete_duplicates H files).deletedCount =
      ((deletionTargets (dupf_files_by_hash H files)).filter
        (fun f => f.deleteOk)).length ∧
    (find_and_delete_duplicates H files).totalDeletedSize =
      (((deletionTargets (dupf_files_by_hash H files)).filter
        (fun f => f.deleteOk)).map (fun f => f.content.length)).sum ∧
    (find_and_delete_duplicates H files).deletedPaths =
      ((deletionTargets (dupf_files_by_hash H files)).filter
        (fun f => f.deleteOk)).map FileEntry.path := by
  unfold find_and_delete_duplicates
  rw [dupf_fold_eq]
  simp

theorem auto_delete_inner (removeOk : String → Bool) (ps : List String) :
    ∀ (n : Nat) (acc : List String),
      ps.foldl
          (fun acc2 p =>
            if removeOk p then (acc2.1 + 1, acc2.2 ++ [p]) else acc2)
          (n, acc) =
        (n + (ps.filter removeOk).length, acc ++ ps.filter removeOk) := by
  induction ps with
  | nil => intro n acc; simp
  | cons p ps ih =>
    intro n acc
    rw [List.foldl_cons]
    by_cases hp : removeOk p
    · rw [if_pos hp, ih]
      simp only [List.filter_cons, hp, if_true, List.length_cons,
        Prod.mk.injEq, List.append_assoc, List.singleton_append]
      exact ⟨by omega, trivial⟩
    · rw [if_neg hp, ih]
      simp only [List.filter_cons, hp, Bool.false_eq_true, if_false]

theorem auto_delete_eq (removeOk : String → Bool)
    (dups : List (Nat × List String)) :
    auto_delete_duplicates removeOk dups =
      ((dups.flatMap (fun kv => (kv.2.drop 1).filter removeOk)).length,
       dups.flatMap (fun kv => (kv.2.drop 1).filter removeOk)) := by
  unfold auto_delete_duplicates
  have hgen : ∀ (n : Nat) (acc : List String),
      dups.foldl
          (fun acc kv =>
            (kv.2.drop 1).foldl
              (fun acc2 p =>
                if removeOk p then (acc2.1 + 1, acc2.2 ++ [p]) else acc2)
              acc)
          (n, acc) =
        (n +
          (dups.flatMap (fun kv => (kv.2.drop 1).filter removeOk)).length,
         acc ++ dups.flatMap (fun kv => (kv.2.drop 1).filter removeOk)) := by
    induction dups with
    | nil => intro n acc; simp
    | cons kv gs ih =>
      intro n acc
      rw [List.foldl_cons, auto_delete_inner, ih]
      simp only [List.flatMap_cons, List.length_append, Prod.mk.injEq,
        List.append_assoc]
      exact ⟨by omega, trivial⟩
  simpa using hgen 0 []

/-- C6: under keep-newest, for two identical-content files with different
modification times the older is deleted and the newer retained, with the
summary reporting one deletion and the deleted file's size reclaimed; the
keep-first variant deletes exactly the removable non-first members of each
group, so the first member is retained; and the member the keep-newest
variant retains carries the group's most recent modification time. -/
theorem C6_retention_policies (H : List Nat → Nat) :
    (∀ f1 f2 : FileEntry,
      f1.content = f2.content → f1.mtime < f2.mtime →
      f1.readOk = true → f1.deleteOk = true → f2.readOk = true →
      find_and_delete_duplicates H [f1, f2] =
        ⟨1, 1, f1.content.length, [f1.path]⟩) ∧
    (∀ (removeOk : String → Bool) (dups : List (Nat × List String)),
      (auto_delete_duplicates removeOk dups).2 =
        dups.flatMap (fun kv => (kv.2.drop 1).filter removeOk)) ∧
    (∀ l : List FileEntry, l ≠ [] →
      ∃ k rest, sortByMtimeDesc l = k :: rest ∧
        ∀ f ∈ l, f.mtime ≤ k.mtime) := by
  refine ⟨?_, ?_, sortByMtimeDesc_head_max⟩
  · intro f1 f2 hcont hmt hr1 hd1 hr2
    have hh : get_file_hash H f2.content = get_file_hash H f1.content := by
      rw [hcont]
    have hdict : dupf_files_by_hash H [f1, f2] =
        [(get_file_hash H f1.content, [f1, f2])] := by
      unfold dupf_files_by_hash
      rw [List.foldl_cons, List.foldl_cons, List.foldl_nil, if_pos hr1,
        if_pos hr2, hh]
      simp [dictInsert]
    unfold find_and_delete_duplicates
    rw [hdict, List.foldl_cons, List.foldl_nil]
    have hlen : ([f1, f2] : List FileEntry).length > 1 := by simp
    rw [if_pos hlen, dupf_deleteGroup_eq]
    have hsort : sortByMtimeDesc [f1, f2] = [f2, f1] := by
      simp [sortByMtimeDesc, insertDesc,
        show ¬ f2.mtime ≤ f1.mtime from by omega]
    rw [hsort]
    simp [hd1]
  · intro removeOk dups
    rw [auto_delete_eq]

/-- C6 witness: concrete twins (older `wA`, newer `wB`), a concrete
keep-first batch, and a concrete keep-newest group head. -/
theorem C6_witness :
    find_and_delete_duplicates demoHash [wA, wB] = ⟨1, 1, 1, ["a"]⟩ ∧
    (auto_delete_duplicates (fun _ => true) [(5, ["x", "y", "z"])]).2 =
      ["y", "z"] ∧
    (∃ k rest, sortByMtimeDesc [wA, wB] = k :: rest ∧
      ∀ f ∈ [wA, wB], f.mtime ≤ k.mtime) := by
  have h := C6_retention_policies demoHash
  refine ⟨?_, ?_, h.2.2 [wA, wB] (by decide)⟩
  · have ha := h.1 wA wB rfl (by decide) rfl rfl rfl
    simpa [wA] using ha
  · have hb := h.2.1 (fun _ => true) [(5, ["x", "y", "z"])]
    simpa using hb
